import Mathlib

/-!
A shallow embedding of the go-vmdk VMDK reader and a verification of its
descriptor parsing, extent assembly, lookup, read dispatch and close logic.

The embedding models:
* `src/parser/context.go` (the primary variant): `GetVMDKContext`,
  `VMDKContext.ReadAt`, `VMDKContext.getExtentForOffset`,
  `VMDKContext.normalizeExtents`, `VMDKContext.Close`, `ParseInt`;
* `src/bin/type.go` (flat extent part): `FlatExtent.ReadAt`,
  `FlatExtent.Close`, `GetFlatExtent`;
* `src/unnamed/part_000` (the alternate variant of `GetVMDKContext`):
  its per-extent-line construction step, which parses integers with an
  error return and treats VMFS like FLAT.

Byte strings are `List Nat` (one Nat per byte; descriptor processing in the
source is byte-oriented and the recognized tokens are ASCII).  Go `int64`
fields are `Int` (the sources never rely on 64-bit wrap-around except inside
`strconv.ParseInt`, whose 64-bit range check is modelled explicitly).
Backing readers (`io.ReaderAt`) are byte arrays with the `bytes.Reader`
positioned-read contract; reader failures other than EOF are not modelled.
One-shot closers are modelled by an identifier, and running a closer is
modelled by emitting its identifier into a trace.
-/

deriving instance DecidableEq for Except

namespace VMDK

/-- Bytes of an ASCII string literal. -/
def strBytes (s : String) : List Nat := s.data.map (fun c => c.toNat)

/-- ASCII decimal digit, the byte class `\d` of the extent regex. -/
def isDigitB (c : Nat) : Bool := 48 ≤ c && c ≤ 57

/-- ASCII upper-case letter, the byte class `[A-Z]` of the extent regex. -/
def isUpperB (c : Nat) : Bool := 65 ≤ c && c ≤ 90

/-- ASCII whitespace byte as trimmed by `strings.TrimSpace`
(and matched by `\s`): space, TAB, LF, VT, FF, CR. -/
def isSpaceB (c : Nat) : Bool := c == 32 || (9 ≤ c && c ≤ 13)

/-- `strings.TrimSpace` on a byte string (ASCII whitespace). -/
def trimSpace (l : List Nat) : List Nat :=
  ((l.dropWhile isSpaceB).reverse.dropWhile isSpaceB).reverse

/-- `strings.Split(s, "\n")`: split on the byte 10, keeping empty pieces. -/
def splitLines : List Nat → List (List Nat)
  | [] => [[]]
  | c :: rest =>
    if c = 10 then [] :: splitLines rest
    else
      match splitLines rest with
      | [] => [[c]]
      | h :: t => (c :: h) :: t

/-- `strconv.ParseInt(s, 10, 64)`: optional sign, decimal digits, and a
64-bit signed range check; `.error ()` stands for a non-nil Go error
(both `ErrSyntax` and `ErrRange`). -/
def goParseInt (s : List Nat) : Except Unit Int :=
  match s with
  | [] => .error ()
  | c :: rest =>
    let p : Bool × List Nat :=
      if c = 43 then (false, rest)
      else if c = 45 then (true, rest)
      else (false, c :: rest)
    let neg := p.1
    let ds := p.2
    if ds.isEmpty then .error ()
    else if ds.all isDigitB then
      let v : Nat := ds.foldl (fun a d => a * 10 + (d - 48)) 0
      if neg then
        if v ≤ 9223372036854775808 then .ok (-(v : Int)) else .error ()
      else
        if v ≤ 9223372036854775807 then .ok (v : Int) else .error ()
    else .error ()

/-! ### The extent-line regex

`ExtentRegex = (RW|R) (\d+) ([A-Z]+) "([^"]+)"(?: (\d+))?` — note: the
source pattern is *unanchored* and its separators are single literal
spaces.  `FindStringSubmatch` uses leftmost-first matching; for this
pattern the match at a given start position is deterministic (each greedy
token is followed by a byte its class excludes), so the matcher below
scans start positions left to right and at each position parses the
pattern tokens in order with maximal-munch repetition. -/

/-- The five capture groups of a successful `ExtentRegex` match
(`match[1]`..`match[5]`); `offsetField = []` when the optional
`(?: (\d+))?` group did not participate, as Go then reports `""`. -/
structure ExtentMatch where
  mode : List Nat
  sectors : List Nat
  etype : List Nat
  filename : List Nat
  offsetField : List Nat
deriving DecidableEq

/-- Match ` (\d+) ([A-Z]+) "([^"]+)"(?: (\d+))?` (everything after the
access-mode group and the space that follows it). -/
def matchTail (mode : List Nat) (rest : List Nat) : Option ExtentMatch :=
  let ds := rest.takeWhile isDigitB
  if ds.isEmpty then none else
  match rest.drop ds.length with
  | 32 :: r2 =>
    let us := r2.takeWhile isUpperB
    if us.isEmpty then none else
    (match r2.drop us.length with
     | 32 :: 34 :: r4 =>
       let fn := r4.takeWhile (fun c => !(c == 34))
       if fn.isEmpty then none else
       (match r4.drop fn.length with
        | 34 :: r5 =>
          (match r5 with
           | 32 :: r6 =>
             let os := r6.takeWhile isDigitB
             if os.isEmpty then some ⟨mode, ds, us, fn, []⟩
             else some ⟨mode, ds, us, fn, os⟩
           | _ => some ⟨mode, ds, us, fn, []⟩)
        | _ => none)
     | _ => none)
  | _ => none

/-- Try to match the whole pattern starting at the head of the list.
`(RW|R)` is leftmost-first: the `RW` alternative is preferred, and the two
alternatives are mutually exclusive here because each must be followed by
the literal space (82 = R, 87 = W, 32 = space). -/
def matchAt : List Nat → Option ExtentMatch
  | 82 :: 87 :: 32 :: rest => matchTail [82, 87] rest
  | 82 :: 32 :: rest => matchTail [82] rest
  | _ => none

/-- `ExtentRegex.FindStringSubmatch(line)`: leftmost match of the
unanchored pattern, scanning start positions from the left. -/
def extentRegexFind : List Nat → Option ExtentMatch
  | [] => none
  | c :: rest =>
    match matchAt (c :: rest) with
    | some m => some m
    | none => extentRegexFind rest

/-! ### The regex the specification claims

Following the spec text (claim C9) rather than the source: the anchored
pattern `^(RW|R)\s+(\d+)\s+([A-Z]+)\s+"([^"]+)"(?:\s+(\d+))?` with
`\s+` separators.  Declared only to be compared with `extentRegexFind`. -/

/-- Tail of the spec-claimed anchored pattern after the mode group:
`\s+(\d+)\s+([A-Z]+)\s+"([^"]+)"(?:\s+(\d+))?`. -/
def specMatchTail (mode : List Nat) (rest : List Nat) : Option ExtentMatch :=
  let sp1 := rest.takeWhile isSpaceB
  if sp1.isEmpty then none else
  let r1 := rest.drop sp1.length
  let ds := r1.takeWhile isDigitB
  if ds.isEmpty then none else
  let r2 := r1.drop ds.length
  let sp2 := r2.takeWhile isSpaceB
  if sp2.isEmpty then none else
  let r3 := r2.drop sp2.length
  let us := r3.takeWhile isUpperB
  if us.isEmpty then none else
  let r4 := r3.drop us.length
  let sp3 := r4.takeWhile isSpaceB
  if sp3.isEmpty then none else
  (match r4.drop sp3.length with
   | 34 :: r5 =>
     let fn := r5.takeWhile (fun c => !(c == 34))
     if fn.isEmpty then none else
     (match r5.drop fn.length with
      | 34 :: r6 =>
        let sp4 := r6.takeWhile isSpaceB
        if sp4.isEmpty then some ⟨mode, ds, us, fn, []⟩
        else
          let os := (r6.drop sp4.length).takeWhile isDigitB
          if os.isEmpty then some ⟨mode, ds, us, fn, []⟩
          else some ⟨mode, ds, us, fn, os⟩
      | _ => none)
   | _ => none)

/-- The spec-claimed anchored regex of C9: matches only at the start of
the line. -/
def specAnchoredExtentMatch : List Nat → Option ExtentMatch
  | 82 :: 87 :: rest =>
    (match rest with
     | c :: _ => if isSpaceB c then specMatchTail [82, 87] rest else none
     | [] => none)
  | 82 :: rest =>
    (match rest with
     | c :: _ => if isSpaceB c then specMatchTail [82] rest else none
     | [] => none)
  | _ => none

/-! ### Extents

`FlatExtent` is translated from `src/bin/type.go`.  The sparse-extent and
null-extent implementations (`GetSparseExtent`, `SparseExtent`,
`NullExtent`) are not part of the provided sources — only their callers
are — so their reads are modelled from the spec (sections 4.3 and 4.4) and
sparse construction is a parameter of context construction. -/

/-- Positioned-read error: `io.EOF`, or the non-EOF error a byte-array
reader raises on a negative offset. -/
inductive RErr
  | eof
  | negOffset
deriving DecidableEq

/-- `ReadAt` on a byte-array backing reader (the `bytes.Reader` contract):
at `off < 0` a non-EOF error; at `off ≥ size` `(0, io.EOF)`; otherwise up
to `count` bytes from `off`, with `io.EOF` when fewer than `count` remain.
Returns (bytes written, count written, error). -/
def readerAt (data : List Nat) (count : Nat) (off : Int) : List Nat × Nat × Option RErr :=
  if off < 0 then ([], 0, some RErr.negOffset)
  else if (data.length : Int) ≤ off then ([], 0, some RErr.eof)
  else
    let o := off.toNat
    let n := min count (data.length - o)
    ((data.drop o).take n, n, if n < count then some RErr.eof else none)

/-- Modelled from the spec: the `SparseExtent` payload.  `GetSparseExtent`
and the `SparseExtent` reader are missing from the sources; spec section
4.3 gives the lookup `grain_index = o / (grain_size*512)`,
`gt_index = grain_index / 512`, `entry_index = grain_index % 512`, a zero
grain-directory or grain-table entry meaning a zero-filled hole, and
otherwise the byte at `grain_sector*512 + o % (grain_size*512)` of the
backing file.  The loaded grain tables are kept as a list parallel to the
grain directory. -/
structure SparseData where
  reader : List Nat
  grainSizeSectors : Nat
  gd : List Nat
  gts : List (List Nat)
  total_size : Int
deriving DecidableEq

/-- Modelled from the spec: one resolved byte of a sparse extent
(spec section 4.3, steps 1–6). -/
def sparseByte (d : SparseData) (o : Nat) : Nat :=
  let grainBytes := d.grainSizeSectors * 512
  let gi := o / grainBytes
  let gtIndex := gi / 512
  let entryIndex := gi % 512
  let gtSector := d.gd.getD gtIndex 0
  if gtSector = 0 then 0
  else
    let grainSector := (d.gts.getD gtIndex []).getD entryIndex 0
    if grainSector = 0 then 0
    else d.reader.getD (grainSector * 512 + o % grainBytes) 0

/-- Modelled from the spec: `SparseExtent.ReadAt` (spec section 4.3 read
protocol): clamp to `total_size`, resolve each byte through the grain
tables, return `(n, nil)` on full satisfaction and `(n, EOF)` when the
read was clamped at the end of the extent. -/
def sparseReadAt (d : SparseData) (count : Nat) (off : Int) : List Nat × Nat × Option RErr :=
  if off < 0 ∨ d.total_size ≤ off then ([], 0, some RErr.eof)
  else
    let n := min count (d.total_size - off).toNat
    ((List.range n).map (fun j => sparseByte d (off.toNat + j)), n,
      if n < count then some RErr.eof else none)

/-- Modelled from the spec: `NullExtent.ReadAt` (spec section 4.4): a
synthetic hole; clamps to its `total_size` and writes zeros. -/
def nullReadAt (sz : Int) (count : Nat) (off : Int) : List Nat × Nat × Option RErr :=
  if off < 0 ∨ sz ≤ off then ([], 0, some RErr.eof)
  else
    let n := min count (sz - off).toNat
    (List.replicate n 0, n, if n < count then some RErr.eof else none)

/-- The closed set of extent variants held by a `VMDKContext`.
`flat` carries the `FlatExtent` fields of `src/bin/type.go` (the
`header.Offset` byte offset, `total_size`, the virtual `offset`, the
backing reader, `filename`, and the owned `closer`, identified by a
number, `none` when nil).  `sparse` carries the spec-modelled sparse data
plus the fields `GetVMDKContext` assigns (`offset`, `filename`,
`closer`).  `null` carries only `offset` and `total_size`, as built by
`normalizeExtents`. -/
inductive Extent
  | flat (reader : List Nat) (headerOffset : Int) (total_size : Int)
      (offset : Int) (filename : List Nat) (closer : Option Nat)
  | sparse (d : SparseData) (offset : Int) (filename : List Nat) (closer : Option Nat)
  | null (offset : Int) (total_size : Int)
deriving DecidableEq

/-- `Extent.VirtualOffset()`. -/
def Extent.vOffset : Extent → Int
  | .flat _ _ _ o _ _ => o
  | .sparse _ o _ _ => o
  | .null o _ => o

/-- `Extent.TotalSize()`. -/
def Extent.size : Extent → Int
  | .flat _ _ sz _ _ _ => sz
  | .sparse d _ _ _ => d.total_size
  | .null _ sz => sz

/-- The closer owned by an extent (`nil` modelled as `none`;
a `NullExtent` owns nothing). -/
def Extent.closerOf : Extent → Option Nat
  | .flat _ _ _ _ _ c => c
  | .sparse _ _ _ c => c
  | .null _ _ => none

/-- `FlatExtent.ReadAt` (src/bin/type.go): EOF outside `[0, total_size)`,
clamp the requested count to `total_size - offset`, then delegate to the
backing reader at `header.Offset + offset`. -/
def flatReadAt (reader : List Nat) (headerOffset : Int) (total_size : Int)
    (count : Nat) (off : Int) : List Nat × Nat × Option RErr :=
  if off < 0 ∨ total_size ≤ off then ([], 0, some RErr.eof)
  else
    let toRead : Int := if off + count > total_size then total_size - off else (count : Int)
    readerAt reader toRead.toNat (headerOffset + off)

/-- `extent.ReadAt(buf[:count], off)` dispatched over the variants.
Returns the bytes written (always exactly `n` of them), the count `n`,
and the error. -/
def extentReadAt : Extent → Nat → Int → List Nat × Nat × Option RErr
  | .flat reader hoff sz _ _ _, count, off => flatReadAt reader hoff sz count off
  | .sparse d _ _ _, count, off => sparseReadAt d count off
  | .null _ sz, count, off => nullReadAt sz count off

/-- `FlatExtent.Close` (src/bin/type.go): run the closer if it is
non-nil.  The source never nulls the closer after running it.  The trace
lists the identifiers of the closers that were invoked, in order.  The
sparse close is modelled the same way (its code is absent from the
sources; the spec gives it the same one-shot owned closer), and a
`NullExtent` owns no closer. -/
def extentCloseTrace : Extent → List Nat
  | .flat _ _ _ _ _ (some c) => [c]
  | .flat _ _ _ _ _ none => []
  | .sparse _ _ _ (some c) => [c]
  | .sparse _ _ _ none => []
  | .null _ _ => []

/-! ### The context: lookup, normalization, ReadAt, Close -/

/-- The claim-relevant fields of `VMDKContext`: the ordered extent list
and `total_size`.  (`config`, `profile` and the primary reader are not
consulted by any of the modelled operations after construction.) -/
structure VMDKCtx where
  extents : List Extent
  total_size : Int
deriving DecidableEq

/-- `sort.Search`'s loop: `i, j := 0, n; for i < j { h := (i+j)/2; if
!f(h) { i = h+1 } else { j = h } }; return i`.  The first argument is an
iteration bound (`j - i` shrinks by at least one per iteration, so any
bound of at least `j - i` gives the loop's exact result); it makes the
recursion structural so that proofs by `decide` can evaluate it. -/
def goSearchAux (f : Nat → Bool) : Nat → Nat → Nat → Nat
  | 0, i, _ => i
  | fuel + 1, i, j =>
    if i < j then
      let m := (i + j) / 2
      if f m then goSearchAux f fuel i m else goSearchAux f fuel (m + 1) j
    else i

/-- `sort.Search(n, f)`. -/
def goSearch (n : Nat) (f : Nat → Bool) : Nat := goSearchAux f n 0 n

/-- `VMDKContext.getExtentForOffset`: binary-search the first extent with
`virtual_offset > offset`, step back one, and reject (with `io.EOF`,
modelled as `.error ()`) when the candidate starts after `offset` or ends
before it (`virtual_offset + extent_size < offset`, a non-strict
membership test). -/
def getExtentForOffset (ctx : VMDKCtx) (offset : Int) : Except Unit Extent :=
  let n := goSearch ctx.extents.length (fun i =>
    match ctx.extents[i]? with
    | some e => decide (e.vOffset > offset)
    | none => false)
  if n < 1 ∨ n > ctx.extents.length then .error ()
  else
    match ctx.extents[n - 1]? with
    | none => .error ()
    | some e =>
      if e.vOffset > offset ∨ e.vOffset + e.size < offset then .error ()
      else .ok e

/-- The loop body of `VMDKContext.normalizeExtents`: walk the declared
extents keeping a running offset, inserting a `NullExtent` over any gap. -/
def normGo : List Extent → Int → List Extent
  | [], _ => []
  | e :: rest, offset =>
    if e.vOffset > offset then
      Extent.null offset (e.vOffset - offset) :: e :: normGo rest (offset + e.size)
    else e :: normGo rest (offset + e.size)

/-- `VMDKContext.normalizeExtents` (it replaces the extent slice; the
running offset starts at 0). -/
def normalizeExtents (extents : List Extent) : List Extent := normGo extents 0

/-- `VMDKContext.Close`: close every extent, in order. -/
def ctxCloseTrace (ctx : VMDKCtx) : List Nat :=
  ctx.extents.foldl (fun acc e => acc ++ extentCloseTrace e) []

/-- Outcome of `VMDKContext.ReadAt`: the caller's buffer after the call,
the returned count, and the returned error — or a Go runtime panic
(slice bounds out of range) for inputs on which the source would panic. -/
inductive ReadOutcome
  | ok (buf : List Nat) (n : Nat) (err : Option RErr)
  | panicOOR
deriving DecidableEq

/-- Overwrite `buf[i : i + w.length]` with `w`. -/
def spliceAt (buf : List Nat) (i : Nat) (w : List Nat) : List Nat :=
  buf.take i ++ w ++ buf.drop (i + w.length)

/-- The per-extent partial-read loop of `VMDKContext.ReadAt`.
`bufLen` is `buf_len`, the length of the *original* buffer captured
before clamping; `L` is the length of the clamped slice the loop may
write into; `buf` is the caller's whole buffer; `i` the progress counter.
On a failed lookup the source zeroes every byte of the clamped buffer
(`for i := 0; i < len(buf); i++ { buf[i] = 0 }`) and returns
`(len(buf), nil)`.  The slice expression `buf[i : i+to_read]` panics when
`to_read` is negative or `i + to_read` exceeds the buffer capacity; the
capacity is at least the original length and is modelled as exactly the
original length `bufLen` (the bound never trips, since
`to_read <= buf_len - i`, but the check keeps the Go slicing semantics).
Note the clamp only re-slices `buf`, so for a context with broken
invariants the loop can write into `buf` beyond the clamped length but
within the original length, exactly as the source can.  The first
explicit loop argument is an iteration bound making the recursion
structural: each iteration advances `i` by at least one, so a bound of at
least `bufLen - i` (the caller passes `bufLen`) gives the loop's exact
result. -/
def readLoop (ctx : VMDKCtx) (bufLen L : Nat) (off : Int) :
    Nat → List Nat → Nat → ReadOutcome
  | 0, buf, i => .ok buf i none
  | fuel + 1, buf, i =>
    if i < bufLen then
      match getExtentForOffset ctx (off + i) with
      | .error _ => .ok (List.replicate L 0 ++ buf.drop L) L none
      | .ok e =>
        let idx := off + (i : Int) - e.vOffset
        let avail := e.size - idx
        let toRead : Int := if ((bufLen : Int) - i) > avail then avail else (bufLen : Int) - i
        if 0 ≤ toRead ∧ (i : Int) + toRead ≤ (bufLen : Int) then
          match extentReadAt e toRead.toNat idx with
          | (w, n, err) =>
            let buf2 := spliceAt buf i w
            if err ≠ none ∧ err ≠ some RErr.eof then .ok buf2 i err
            else if n = 0 then .ok buf2 i none
            else readLoop ctx bufLen L off fuel buf2 (i + n)
        else .panicOOR
    else .ok buf i none

/-- `VMDKContext.ReadAt`: EOF for `offset > total_size` or `offset < 0`,
clamp the buffer to `total_size - offset`, then loop over per-extent
partial reads. -/
def vmdkReadAt (ctx : VMDKCtx) (buf : List Nat) (off : Int) : ReadOutcome :=
  if off > ctx.total_size ∨ off < 0 then .ok buf 0 (some RErr.eof)
  else
    let avail := ctx.total_size - off
    let L := if (buf.length : Int) > avail then avail.toNat else buf.length
    readLoop ctx buf.length L off buf.length buf 0

/-! ### Context construction (`GetVMDKContext`) -/

/-- `GetFlatExtent` (src/bin/type.go): never fails; the byte length is
`sectors * 512` and the in-file base offset `offsetSectors * 512`
(SECTOR_SIZE = 512). -/
def getFlatExtent (reader : List Nat) (filename : List Nat)
    (offsetSectors sectors : Int) (virtualOffset : Int) (closer : Option Nat) : Extent :=
  .flat reader (offsetSectors * 512) (sectors * 512) virtualOffset filename closer

/-- Construction-time error values returned by `GetVMDKContext`. -/
inductive OpenErr
  | openerErr
  | sparseErr (filename : List Nat)
  | unsupported (etype : List Nat)
  | parseErr
deriving DecidableEq

/-- Go runtime panics the primary source can hit during construction. -/
inductive PanicKind
  | sliceOOR
  | makeslice
  | invalidInteger
deriving DecidableEq

/-- Result of handling one matched extent line. -/
inductive BuildRes
  | okE (e : Extent)
  | fail (e : OpenErr)
  | panicRes (p : PanicKind)
deriving DecidableEq

/-- An opener callback: filename to (backing reader, closer id) or error. -/
def Opener : Type := List Nat → Except Unit (List Nat × Option Nat)

/-- A sparse-extent builder standing for `GetSparseExtent` (absent from
the sources): backing-reader bytes to the spec-modelled sparse data, or
an error (e.g. bad magic). -/
def SparseBuilder : Type := List Nat → Except Unit SparseData

/-- The matched-extent-line handling of the primary `GetVMDKContext`
(src/parser/context.go, `case "Extents"`): call the opener, then switch
on the extent type.  `SPARSE` builds a sparse extent whose virtual offset
is the running `total_size`; `FLAT` calls `ParseInt` on `match[2]` and on
`match[5]` — `ParseInt` panics on a malformed integer, and `match[5]` is
the empty string when the optional offset group is absent — then builds a
flat extent; any other type is an unsupported-extent-type error. -/
def buildExtentPrimary (m : ExtentMatch) (opener : Opener) (sb : SparseBuilder)
    (total : Int) : BuildRes :=
  match opener m.filename with
  | .error _ => .fail .openerErr
  | .ok (reader, closer) =>
    if m.etype = strBytes ("SPARSE") then
      match sb reader with
      | .error _ => .fail (.sparseErr m.filename)
      | .ok d => .okE (.sparse d total m.filename closer)
    else if m.etype = strBytes ("FLAT") then
      match goParseInt m.sectors with
      | .error _ => .panicRes .invalidInteger
      | .ok sectors =>
        match goParseInt m.offsetField with
        | .error _ => .panicRes .invalidInteger
        | .ok offsetSectors =>
          .okE (getFlatExtent reader m.filename offsetSectors sectors total closer)
    else .fail (.unsupported m.etype)

/-- The matched-extent-line handling of the alternate `GetVMDKContext`
(src/unnamed/part_000): parse `match[2]` first, returning the parse error
to the caller; default the sector offset to 0 when `match[5]` is empty,
otherwise parse it, returning the error; call the opener; then switch,
with `FLAT` and `VMFS` both building a flat extent. -/
def buildExtentAlt (m : ExtentMatch) (opener : Opener) (sb : SparseBuilder)
    (total : Int) : Except OpenErr Extent :=
  match goParseInt m.sectors with
  | .error _ => .error .parseErr
  | .ok sectors =>
    match (if m.offsetField.isEmpty then .ok 0 else goParseInt m.offsetField :
        Except Unit Int) with
    | .error _ => .error .parseErr
    | .ok offsetSectors =>
      match opener m.filename with
      | .error _ => .error .openerErr
      | .ok (reader, closer) =>
        if m.etype = strBytes ("SPARSE") then
          match sb reader with
          | .error _ => .error (.sparseErr m.filename)
          | .ok d => .ok (.sparse d total m.filename closer)
        else if m.etype = strBytes ("FLAT") ∨ m.etype = strBytes ("VMFS") then
          .ok (getFlatExtent reader m.filename offsetSectors sectors total closer)
        else .error (.unsupported m.etype)

/-- `strings.Contains(hay, needle)`: `needle` occurs contiguously in
`hay`. -/
def containsBytes (needle : List Nat) : List Nat → Bool
  | [] => needle.isEmpty
  | c :: t => if needle.isPrefixOf (c :: t) then true else containsBytes needle t

/-- One step of the primary source's line loop: the state string, the
running `total_size` and the extent list so far, or an error / panic. -/
inductive StepRes
  | cont (state : String) (total : Int) (extents : List Extent)
  | fail (e : OpenErr)
  | panicRes (p : PanicKind)
deriving DecidableEq

/-- One line of the primary `GetVMDKContext` loop: trim the line, check
the three section-header prefixes (each sets the state and skips the
rest), then dispatch on the state.  In `KDMV` a line containing the text
`# Disk DescriptorFile` enters `Descriptor`; `Descriptor` and
`DiskDataBase` store config settings (which no modelled operation reads,
so the step keeps its state); in `Extents` a regex match builds an extent
appended with virtual offset equal to the running total, and a non-match
resets the state to the empty string. -/
def stepLine (opener : Opener) (sb : SparseBuilder) (st : String) (total : Int)
    (exts : List Extent) (rawLine : List Nat) : StepRes :=
  let line := trimSpace rawLine
  if (strBytes ("# Disk DescriptorFile")).isPrefixOf line then
    .cont ("Descriptor") total exts
  else if (strBytes ("# Extent description")).isPrefixOf line then
    .cont ("Extents") total exts
  else if (strBytes ("# The Disk Data Base")).isPrefixOf line then
    .cont ("DiskDataBase") total exts
  else
    match st with
    | "KDMV" =>
      if containsBytes (strBytes ("# Disk DescriptorFile")) line then
        .cont ("Descriptor") total exts
      else .cont ("KDMV") total exts
    | "Extents" =>
      match extentRegexFind line with
      | none => .cont ("") total exts
      | some m =>
        match buildExtentPrimary m opener sb total with
        | .okE e => .cont ("Extents") (total + e.size) (exts ++ [e])
        | .fail er => .fail er
        | .panicRes p => .panicRes p
    | other => .cont other total exts

/-- Outcome of `GetVMDKContext`: a context, a returned error, or a panic. -/
inductive OpenOutcome
  | ok (ctx : VMDKCtx)
  | err (e : OpenErr)
  | panic (p : PanicKind)
deriving DecidableEq

/-- The primary line loop over the split descriptor text, ending with
`normalizeExtents` and the assembled context. -/
def processLines (opener : Opener) (sb : SparseBuilder) :
    List (List Nat) → String → Int → List Extent → OpenOutcome
  | [], _, total, exts => .ok ⟨normalizeExtents exts, total⟩
  | l :: ls, st, total, exts =>
    match stepLine opener sb st total exts l with
    | .cont st2 t2 e2 => processLines opener sb ls st2 t2 e2
    | .fail e => .err e
    | .panicRes p => .panic p

/-- Little-endian uint32 of the first four buffer bytes
(`binary.LittleEndian.Uint32(buf[0:4])`). -/
def leUint32 (buf : List Nat) : Nat :=
  buf.getD 0 0 + buf.getD 1 0 * 256 + buf.getD 2 0 * 65536 + buf.getD 3 0 * 16777216

/-- `GetVMDKContext` (src/parser/context.go).  `size` is the declared
primary size; at most 64 KiB of the primary reader is read into `buf`.
A negative `size` makes `make([]byte, size)` panic; the magic-number
check `binary.LittleEndian.Uint32(buf[0:4])` panics (slice bounds out of
range) whenever the buffer is shorter than 4 bytes.  When the magic
`0x564d444b` matches, the line loop starts in the `KDMV` state.  The
primary reader is modelled as the byte list `data` (so its `ReadAt`
returns `min(size, len(data))` bytes and at worst `io.EOF`, which the
source ignores). -/
def getVMDKContext (data : List Nat) (size : Int) (opener : Opener)
    (sb : SparseBuilder) : OpenOutcome :=
  if size < 0 then .panic .makeslice
  else
    let size2 := if size > 65536 then (65536 : Int) else size
    let sz := size2.toNat
    let buf := data.take sz ++ List.replicate (sz - data.length) 0
    let n := min sz data.length
    if sz < 4 then .panic .sliceOOR
    else
      let st0 : String := if leUint32 buf = 0x564d444b then ("KDMV") else ("")
      processLines opener sb (splitLines (buf.take n)) st0 0 []

/-! ### Invariant predicates and concrete fixtures -/

/-- Sum of the byte sizes of a list of extents. -/
def sumSizes : List Extent → Int
  | [] => 0
  | e :: rest => e.size + sumSizes rest

/-- The extents tile the address space contiguously starting at `b`:
each extent's virtual offset equals the running sum of the sizes before
it. -/
def contigFromB (b : Int) : List Extent → Bool
  | [] => true
  | e :: rest => e.vOffset == b && contigFromB (b + e.size) rest

/-- Every extent's size is non-negative. -/
def allNonneg (es : List Extent) : Bool := es.all (fun e => decide (0 ≤ e.size))

/-- Well-formed context: contiguous extents starting at 0, non-negative
sizes, and `total_size` equal to the sum of the sizes (the invariants of
spec section 3 that context construction establishes). -/
def wfB (ctx : VMDKCtx) : Bool :=
  contigFromB 0 ctx.extents && ctx.total_size == sumSizes ctx.extents &&
    allNonneg ctx.extents

/-- Spec invariant 1 as stated: every adjacent pair satisfies
`e_i.virtual_offset + e_i.total_size == e_{i+1}.virtual_offset`. -/
def adjacentPairsOk : List Extent → Bool
  | e1 :: e2 :: rest => e1.vOffset + e1.size == e2.vOffset && adjacentPairsOk (e2 :: rest)
  | _ => true

/-- A concrete opener used by the closed fixtures: every filename opens
to an empty backing reader with closer id 0. -/
def openerEg : Opener := fun _ => .ok ([], some 0)

/-- A concrete sparse builder used by the closed fixtures (never consulted
by them). -/
def sbEg : SparseBuilder := fun _ => .error ()

/-- A well-formed one-extent context: a 1024-byte flat extent at virtual
offset 0 with closer id 5. -/
def egExtent : Extent := Extent.flat (List.replicate 8 1) 0 1024 0 [] (some 5)

/-- The context holding `egExtent`; `total_size` 1024. -/
def egCtx : VMDKCtx := ⟨[egExtent], 1024⟩

/-- A context with broken invariants (overlapping, non-contiguous
extents): a 16-byte flat extent at 0 backed by the byte 170 repeated,
and a 1-byte extent at 3; declared `total_size` 100.  `ReadAt` on it
reaches the lookup-failure branch after partial progress. -/
def brCtx : VMDKCtx :=
  ⟨[Extent.flat (List.replicate 40 170) 0 16 0 [] none,
    Extent.flat [] 0 1 3 [] none], 100⟩

/-- Descriptor text declaring one FLAT extent of 2 sectors at sector
offset 0. -/
def descFlat : List Nat := strBytes ("# Extent description\nRW 2 FLAT \"a.vmdk\" 0\n")

/-- Descriptor text declaring one VMFS extent of 2 sectors. -/
def descVmfs : List Nat := strBytes ("# Extent description\nRW 2 VMFS \"a.vmdk\" 0\n")

/-- Descriptor text whose extent line carries a sector count that
overflows a signed 64-bit integer (a `\d+` string `strconv.ParseInt`
rejects with `ErrRange`). -/
def descOverflow : List Nat :=
  strBytes ("# Extent description\nRW 99999999999999999999 FLAT \"a.vmdk\" 0\n")

/-- Descriptor text whose extent line has two leading junk characters
before `RW` (and is otherwise well-formed). -/
def descLeadingJunk : List Nat :=
  strBytes ("# Extent description\nZZRW 2 FLAT \"x.vmdk\" 0\n")

/-- The junk-prefixed extent line of `descLeadingJunk`. -/
def lineLeadingJunk : List Nat := strBytes ("ZZRW 2 FLAT \"x.vmdk\" 0")

/-- An extent line whose fields are separated by two spaces instead of
one. -/
def lineDoubleSpace : List Nat := strBytes ("RW  2 FLAT \"x.vmdk\" 0")

/-- The extent `getVMDKContext` builds from `descFlat` with `openerEg`. -/
def eFlat : Extent := Extent.flat [] 0 1024 0 (strBytes ("a.vmdk")) (some 0)

/-- The context `getVMDKContext` returns on `descFlat` with `openerEg`. -/
def cFlat : VMDKCtx := ⟨[eFlat], 1024⟩

/-- A parsed extent line declaring kind VMFS. -/
def mVMFS : ExtentMatch :=
  ⟨strBytes ("RW"), strBytes ("2"), strBytes ("VMFS"), strBytes ("a"), strBytes ("0")⟩

/-- A parsed extent line declaring the unknown kind ZEROES. -/
def mZeroes : ExtentMatch :=
  ⟨strBytes ("RW"), strBytes ("2"), strBytes ("ZEROES"), strBytes ("a"), strBytes ("0")⟩

/-- A parsed extent line whose sector count overflows int64. -/
def mOverflow : ExtentMatch :=
  ⟨strBytes ("RW"), strBytes ("99999999999999999999"), strBytes ("FLAT"),
    strBytes ("a"), strBytes ("0")⟩

/-! ## Lemmas about the binary search -/

/-- Loop invariant of `sort.Search`: given enough fuel, the result `r`
lies in `[i, j]`, `f` holds at `r` unless `r = j`, and `f` fails just
below `r` unless `r = i`. -/
theorem goSearchAux_spec (f : Nat → Bool) :
    ∀ fuel i j, j - i ≤ fuel → i ≤ j →
      i ≤ goSearchAux f fuel i j ∧ goSearchAux f fuel i j ≤ j ∧
      (goSearchAux f fuel i j < j → f (goSearchAux f fuel i j) = true) ∧
      (i < goSearchAux f fuel i j → f (goSearchAux f fuel i j - 1) = false) := by
  intro fuel
  induction fuel with
  | zero =>
    intro i j hfuel hij
    have hij2 : i = j := by omega
    subst hij2
    simp [goSearchAux]
  | succ fuel ih =>
    intro i j hfuel hij
    by_cases hlt : i < j
    · have hmlo : i ≤ (i + j) / 2 := by omega
      have hmhi : (i + j) / 2 < j := by omega
      by_cases hf : f ((i + j) / 2) = true
      · have h2 := ih i ((i + j) / 2) (by omega) (by omega)
        simp only [goSearchAux, if_pos hlt, hf, if_true]
        obtain ⟨ha, hb, hc, hd⟩ := h2
        refine ⟨ha, by omega, ?_, hd⟩
        intro _
        rcases Nat.lt_or_ge (goSearchAux f fuel i ((i + j) / 2)) ((i + j) / 2) with hr | hr
        · exact hc hr
        · have : goSearchAux f fuel i ((i + j) / 2) = (i + j) / 2 := by omega
          rw [this]; exact hf
      · have hf2 : f ((i + j) / 2) = false := by
          cases hb : f ((i + j) / 2) with
          | true => exact absurd hb hf
          | false => rfl
        have h2 := ih ((i + j) / 2 + 1) j (by omega) (by omega)
        simp only [goSearchAux, if_pos hlt, hf2, Bool.false_eq_true, if_false]
        obtain ⟨ha, hb, hc, hd⟩ := h2
        refine ⟨by omega, hb, hc, ?_⟩
        intro _
        rcases Nat.lt_or_ge ((i + j) / 2 + 1) (goSearchAux f fuel ((i + j) / 2 + 1) j)
            with hr | hr
        · exact hd hr
        · have hre : goSearchAux f fuel ((i + j) / 2 + 1) j = (i + j) / 2 + 1 := by omega
          rw [hre]
          simpa using hf2
    · have hij2 : i = j := by omega
      subst hij2
      simp [goSearchAux, hlt]

/-- `sort.Search(n, f)` returns the threshold index `t` whenever `f` is
false strictly below `t` and true from `t` up to `n`. -/
theorem goSearch_eq (n : Nat) (f : Nat → Bool) (t : Nat) (ht : t ≤ n)
    (hbelow : ∀ k, k < t → f k = false)
    (habove : ∀ k, t ≤ k → k < n → f k = true) : goSearch n f = t := by
  obtain ⟨h1, h2, h3, h4⟩ := goSearchAux_spec f n 0 n (by omega) (by omega)
  show goSearchAux f n 0 n = t
  by_contra hne
  rcases Nat.lt_or_ge (goSearchAux f n 0 n) t with hlt | hge
  · have hr := h3 (by omega)
    have := hbelow _ hlt
    simp_all
  · have hgt : t < goSearchAux f n 0 n := by omega
    have hr := h4 (by omega)
    have := habove (goSearchAux f n 0 n - 1) (by omega) (by omega)
    simp_all

/-! ## Lemmas about contiguity and size sums -/

/-- `sumSizes` over a cons. -/
theorem sumSizes_cons (e : Extent) (l : List Extent) :
    sumSizes (e :: l) = e.size + sumSizes l := rfl

/-- `sumSizes` over an appended singleton. -/
theorem sumSizes_append (es : List Extent) (e : Extent) :
    sumSizes (es ++ [e]) = sumSizes es + e.size := by
  induction es with
  | nil => simp [sumSizes]
  | cons e2 rest ih =>
    simp only [List.cons_append, sumSizes_cons, ih]
    omega

/-- In a contiguous run starting at `b`, the `k`-th virtual offset is `b`
plus the sizes before it. -/
theorem contig_vOffset : ∀ (es : List Extent) (b : Int), contigFromB b es = true →
    ∀ (k : Nat) (hk : k < es.length), (es[k]).vOffset = b + sumSizes (es.take k) := by
  intro es
  induction es with
  | nil => intro b _ k hk; simp at hk
  | cons e rest ih =>
    intro b hc k hk
    simp only [contigFromB, Bool.and_eq_true, beq_iff_eq] at hc
    obtain ⟨he, hrest⟩ := hc
    cases k with
    | zero => simpa [sumSizes] using he
    | succ k2 =>
      have h2 := ih (b + e.size) hrest k2 (by simpa using hk)
      simp only [List.getElem_cons_succ, List.take_succ_cons, sumSizes_cons]
      omega

/-- Partial size sums grow by the element at the boundary. -/
theorem sumSizes_take_succ : ∀ (es : List Extent) (k : Nat) (hk : k < es.length),
    sumSizes (es.take (k + 1)) = sumSizes (es.take k) + (es[k]).size := by
  intro es
  induction es with
  | nil => intro k hk; simp at hk
  | cons e rest ih =>
    intro k hk
    cases k with
    | zero => simp [sumSizes]
    | succ k2 =>
      have h2 := ih k2 (by simpa using hk)
      simp only [List.take_succ_cons, sumSizes_cons, List.getElem_cons_succ]
      omega

/-- Partial size sums are non-negative when all sizes are. -/
theorem sumSizes_take_nonneg : ∀ (es : List Extent), allNonneg es = true →
    ∀ k, 0 ≤ sumSizes (es.take k) := by
  intro es
  induction es with
  | nil => intro _ k; simp [sumSizes]
  | cons e rest ih =>
    intro hnn k
    simp only [allNonneg, List.all_cons, Bool.and_eq_true, decide_eq_true_eq] at hnn
    cases k with
    | zero => simp [sumSizes]
    | succ k2 =>
      have h2 := ih (by simpa [allNonneg] using hnn.2) k2
      simp only [List.take_succ_cons, sumSizes_cons]
      omega

/-- Partial size sums are monotone when all sizes are non-negative. -/
theorem sumSizes_take_mono : ∀ (es : List Extent), allNonneg es = true →
    ∀ j k, j ≤ k → sumSizes (es.take j) ≤ sumSizes (es.take k) := by
  intro es
  induction es with
  | nil => intro _ j k _; simp
  | cons e rest ih =>
    intro hnn j k hjk
    simp only [allNonneg, List.all_cons, Bool.and_eq_true, decide_eq_true_eq] at hnn
    cases j with
    | zero =>
      cases k with
      | zero => simp
      | succ k2 =>
        have h2 := sumSizes_take_nonneg rest (by simpa [allNonneg] using hnn.2) k2
        simp only [List.take_succ_cons, sumSizes_cons, List.take_zero]
        simp [sumSizes]
        omega
    | succ j2 =>
      cases k with
      | zero => omega
      | succ k2 =>
        have h2 := ih (by simpa [allNonneg] using hnn.2) j2 k2 (by omega)
        simp only [List.take_succ_cons, sumSizes_cons]
        omega

/-- Sizes are non-negative elementwise. -/
theorem size_nonneg_of_allNonneg (es : List Extent) (hnn : allNonneg es = true)
    (k : Nat) (hk : k < es.length) : 0 ≤ (es[k]).size := by
  have := List.all_eq_true.mp hnn (es[k]) (List.getElem_mem hk)
  simpa using this

/-! ## Lemmas about `getExtentForOffset` on well-formed contexts -/

/-- Unpack `wfB`. -/
theorem wfB_parts (ctx : VMDKCtx) (hwf : wfB ctx = true) :
    contigFromB 0 ctx.extents = true ∧ ctx.total_size = sumSizes ctx.extents ∧
      allNonneg ctx.extents = true := by
  simp only [wfB, Bool.and_eq_true, beq_iff_eq] at hwf
  exact ⟨hwf.1.1, hwf.1.2, hwf.2⟩

/-- The search predicate used by `getExtentForOffset`. -/
def lookupPred (ctx : VMDKCtx) (offset : Int) (i : Nat) : Bool :=
  match ctx.extents[i]? with
  | some e => decide (e.vOffset > offset)
  | none => false

/-- `getExtentForOffset` rephrased through `lookupPred`. -/
theorem getExtentForOffset_eq (ctx : VMDKCtx) (offset : Int) :
    getExtentForOffset ctx offset =
      (let n := goSearch ctx.extents.length (lookupPred ctx offset)
       if n < 1 ∨ n > ctx.extents.length then .error ()
       else
         match ctx.extents[n - 1]? with
         | none => .error ()
         | some e =>
           if e.vOffset > offset ∨ e.vOffset + e.size < offset then .error ()
           else .ok e) := rfl

/-- In range `[vo_k, vo_k + size_k)` of a well-formed context, the lookup
returns extent `k`. -/
theorem lookup_mem (ctx : VMDKCtx) (hwf : wfB ctx = true) (k : Nat)
    (hk : k < ctx.extents.length) (off : Int)
    (h1 : (ctx.extents[k]).vOffset ≤ off)
    (h2 : off < (ctx.extents[k]).vOffset + (ctx.extents[k]).size) :
    getExtentForOffset ctx off = .ok (ctx.extents[k]) := by
  obtain ⟨hcontig, _, hnn⟩ := wfB_parts ctx hwf
  have hvo : ∀ (j : Nat) (hj : j < ctx.extents.length),
      (ctx.extents[j]).vOffset = sumSizes (ctx.extents.take j) := by
    intro j hj
    have := contig_vOffset ctx.extents 0 hcontig j hj
    omega
  have hsearch : goSearch ctx.extents.length (lookupPred ctx off) = k + 1 := by
    apply goSearch_eq _ _ _ (by omega)
    · intro j hj
      have hjlen : j < ctx.extents.length := by omega
      have hmono := sumSizes_take_mono ctx.extents hnn j k (by omega)
      simp only [lookupPred, List.getElem?_eq_getElem hjlen]
      have : ¬ ((ctx.extents[j]).vOffset > off) := by
        rw [hvo j hjlen]
        rw [hvo k hk] at h1
        omega
      simpa using this
    · intro j hj1 hj2
      have hmono := sumSizes_take_mono ctx.extents hnn (k + 1) j hj1
      have hsucc := sumSizes_take_succ ctx.extents k hk
      simp only [lookupPred, List.getElem?_eq_getElem hj2]
      have : (ctx.extents[j]).vOffset > off := by
        rw [hvo j hj2]
        rw [hvo k hk] at h1 h2
        omega
      simpa using this
  rw [getExtentForOffset_eq]
  simp only [hsearch]
  rw [if_neg (by omega)]
  have hk1 : k + 1 - 1 = k := by omega
  rw [hk1, List.getElem?_eq_getElem hk]
  dsimp only
  rw [if_neg (by omega)]

/-- At offset `total_size` of a non-empty well-formed context, the lookup
returns the *last* extent (the membership test is non-strict at the upper
end). -/
theorem lookup_at_total (ctx : VMDKCtx) (hwf : wfB ctx = true)
    (hne : ctx.extents ≠ []) :
    ∃ (hlen : 0 < ctx.extents.length),
      getExtentForOffset ctx ctx.total_size = .ok (ctx.extents[ctx.extents.length - 1]) ∧
      (ctx.extents[ctx.extents.length - 1]).vOffset +
          (ctx.extents[ctx.extents.length - 1]).size = ctx.total_size := by
  obtain ⟨hcontig, htot, hnn⟩ := wfB_parts ctx hwf
  have hlen : 0 < ctx.extents.length := by
    cases h : ctx.extents with
    | nil => exact absurd h hne
    | cons a b => simp [h]
  have hvo : ∀ (j : Nat) (hj : j < ctx.extents.length),
      (ctx.extents[j]).vOffset = sumSizes (ctx.extents.take j) := by
    intro j hj
    have := contig_vOffset ctx.extents 0 hcontig j hj
    omega
  have htl : sumSizes (ctx.extents.take ctx.extents.length) = sumSizes ctx.extents := by
    rw [List.take_length]
  have hend : (ctx.extents[ctx.extents.length - 1]).vOffset +
      (ctx.extents[ctx.extents.length - 1]).size = ctx.total_size := by
    have hsucc := sumSizes_take_succ ctx.extents (ctx.extents.length - 1) (by omega)
    have heq : ctx.extents.length - 1 + 1 = ctx.extents.length := by omega
    rw [heq] at hsucc
    rw [hvo (ctx.extents.length - 1) (by omega)]
    omega
  refine ⟨hlen, ?_, hend⟩
  have hsearch : goSearch ctx.extents.length (lookupPred ctx ctx.total_size) =
      ctx.extents.length := by
    apply goSearch_eq _ _ _ (by omega)
    · intro j hj
      have hmono := sumSizes_take_mono ctx.extents hnn j ctx.extents.length (by omega)
      simp only [lookupPred, List.getElem?_eq_getElem hj]
      have : ¬ ((ctx.extents[j]).vOffset > ctx.total_size) := by
        rw [hvo j hj]
        omega
      simpa using this
    · intro j hj1 hj2
      omega
  rw [getExtentForOffset_eq]
  simp only [hsearch]
  rw [if_neg (by omega)]
  rw [List.getElem?_eq_getElem (by omega : ctx.extents.length - 1 < ctx.extents.length)]
  dsimp only
  rw [if_neg (by
    push_neg
    constructor
    · rw [hvo (ctx.extents.length - 1) (by omega)]
      have hmono := sumSizes_take_mono ctx.extents hnn (ctx.extents.length - 1)
        ctx.extents.length (by omega)
      omega
    · omega)]

/-- Outside `[0, total_size]` of a well-formed context the lookup signals
EOF. -/
theorem lookup_eof (ctx : VMDKCtx) (hwf : wfB ctx = true) (off : Int)
    (hoff : off < 0 ∨ ctx.total_size < off) :
    getExtentForOffset ctx off = .error () := by
  obtain ⟨hcontig, htot, hnn⟩ := wfB_parts ctx hwf
  have hvo : ∀ (j : Nat) (hj : j < ctx.extents.length),
      (ctx.extents[j]).vOffset = sumSizes (ctx.extents.take j) := by
    intro j hj
    have := contig_vOffset ctx.extents 0 hcontig j hj
    omega
  rcases hoff with hneg | hbig
  · have hsearch : goSearch ctx.extents.length (lookupPred ctx off) = 0 := by
      apply goSearch_eq _ _ _ (by omega)
      · intro k hk; omega
      · intro j _ hj2
        have hnn2 := sumSizes_take_nonneg ctx.extents hnn j
        simp only [lookupPred, List.getElem?_eq_getElem hj2]
        have : (ctx.extents[j]).vOffset > off := by
          rw [hvo j hj2]
          omega
        simpa using this
    rw [getExtentForOffset_eq]
    simp only [hsearch]
    rw [if_pos (by omega)]
  · have hsearch : goSearch ctx.extents.length (lookupPred ctx off) =
        ctx.extents.length := by
      apply goSearch_eq _ _ _ (by omega)
      · intro j hj
        have hmono := sumSizes_take_mono ctx.extents hnn j ctx.extents.length (by omega)
        have htl : sumSizes (ctx.extents.take ctx.extents.length) = sumSizes ctx.extents := by
          rw [List.take_length]
        simp only [lookupPred, List.getElem?_eq_getElem hj]
        have : ¬ ((ctx.extents[j]).vOffset > off) := by
          rw [hvo j hj]
          omega
        simpa using this
      · intro j hj1 hj2; omega
    rw [getExtentForOffset_eq]
    simp only [hsearch]
    by_cases hlen : ctx.extents.length = 0
    · rw [if_pos (by omega)]
    · rw [if_neg (by omega)]
      rw [List.getElem?_eq_getElem (by omega : ctx.extents.length - 1 < ctx.extents.length)]
      dsimp only
      rw [if_pos]
      right
      have hsucc := sumSizes_take_succ ctx.extents (ctx.extents.length - 1) (by omega)
      have heq : ctx.extents.length - 1 + 1 = ctx.extents.length := by omega
      rw [heq] at hsucc
      have htl : sumSizes (ctx.extents.take ctx.extents.length) = sumSizes ctx.extents := by
        rw [List.take_length]
      rw [hvo (ctx.extents.length - 1) (by omega)]
      omega

/-! ## Lemmas about normalization and construction -/

/-- Normalizing an already contiguous extent list leaves it unchanged
(the gap test `e.VirtualOffset() > offset` never fires). -/
theorem normGo_of_contig : ∀ (es : List Extent) (b : Int), contigFromB b es = true →
    normGo es b = es := by
  intro es
  induction es with
  | nil => intro b _; rfl
  | cons e rest ih =>
    intro b hc
    simp only [contigFromB, Bool.and_eq_true, beq_iff_eq] at hc
    obtain ⟨he, hrest⟩ := hc
    simp only [normGo, he]
    rw [if_neg (by omega)]
    rw [ih (b + e.size) hrest]

/-- Appending an extent whose virtual offset is the running sum keeps the
list contiguous. -/
theorem contig_append (es : List Extent) (e : Extent) : ∀ (b : Int),
    contigFromB b es = true → e.vOffset = b + sumSizes es →
    contigFromB b (es ++ [e]) = true := by
  induction es with
  | nil =>
    intro b _ he
    simp only [sumSizes] at he
    simp [contigFromB, he]
  | cons e2 rest ih =>
    intro b hc he
    simp only [contigFromB, Bool.and_eq_true, beq_iff_eq] at hc
    obtain ⟨h2, hrest⟩ := hc
    simp only [List.cons_append, contigFromB, Bool.and_eq_true, beq_iff_eq]
    refine ⟨h2, ?_⟩
    apply ih (b + e2.size) hrest
    simp only [sumSizes] at he
    omega

/-- Contiguity gives the adjacent-pair equation of spec invariant 1. -/
theorem contig_adjacent : ∀ (es : List Extent) (b : Int), contigFromB b es = true →
    adjacentPairsOk es = true := by
  intro es
  induction es with
  | nil => intro b _; rfl
  | cons e rest ih =>
    intro b hc
    simp only [contigFromB, Bool.and_eq_true, beq_iff_eq] at hc
    obtain ⟨he, hrest⟩ := hc
    cases rest with
    | nil => rfl
    | cons e2 rest2 =>
      simp only [contigFromB, Bool.and_eq_true, beq_iff_eq] at hrest
      simp only [adjacentPairsOk, Bool.and_eq_true, beq_iff_eq]
      refine ⟨by omega, ?_⟩
      apply ih (b + e.size)
      simp only [contigFromB, Bool.and_eq_true, beq_iff_eq]
      exact hrest

/-- Every extent `buildExtentPrimary` produces sits at virtual offset
equal to the running total it was given. -/
theorem buildExtentPrimary_vOffset (m : ExtentMatch) (opener : Opener)
    (sb : SparseBuilder) (total : Int) (e : Extent)
    (h : buildExtentPrimary m opener sb total = .okE e) : e.vOffset = total := by
  unfold buildExtentPrimary at h
  repeat' split at h
  all_goals simp_all [getFlatExtent, Extent.vOffset]
  all_goals subst h
  all_goals rfl

/-- The only panic `buildExtentPrimary` raises is the `ParseInt` one. -/
theorem buildExtentPrimary_panic (m : ExtentMatch) (opener : Opener)
    (sb : SparseBuilder) (total : Int) (p : PanicKind)
    (h : buildExtentPrimary m opener sb total = .panicRes p) : p = .invalidInteger := by
  unfold buildExtentPrimary at h
  repeat' split at h
  all_goals simp_all

/-- Each `stepLine` continuation either leaves the accumulator unchanged
or appends one extent whose virtual offset is the running total, adding
its size to the total. -/
theorem stepLine_shape (opener : Opener) (sb : SparseBuilder) (st : String)
    (total : Int) (exts : List Extent) (line : List Nat) (st2 : String)
    (t2 : Int) (e2 : List Extent)
    (h : stepLine opener sb st total exts line = .cont st2 t2 e2) :
    (e2 = exts ∧ t2 = total) ∨
      ∃ ex, e2 = exts ++ [ex] ∧ ex.vOffset = total ∧ t2 = total + ex.size := by
  unfold stepLine at h
  dsimp only at h
  repeat' split at h
  all_goals first
    | (left; simp only [StepRes.cont.injEq] at h; exact ⟨h.2.2.symm, h.2.1.symm⟩)
    | (right
       rename_i e heq
       simp only [StepRes.cont.injEq] at h
       exact ⟨e, h.2.2.symm, buildExtentPrimary_vOffset _ opener sb total e heq, h.2.1.symm⟩)
    | simp at h

/-- The only panic a `stepLine` raises is the `ParseInt` one. -/
theorem stepLine_panic (opener : Opener) (sb : SparseBuilder) (st : String)
    (total : Int) (exts : List Extent) (line : List Nat) (p : PanicKind)
    (h : stepLine opener sb st total exts line = .panicRes p) : p = .invalidInteger := by
  unfold stepLine at h
  dsimp only at h
  repeat' split at h
  all_goals first
    | (rename_i p2 heq
       simp only [StepRes.panicRes.injEq] at h
       rw [← h]
       exact buildExtentPrimary_panic _ opener sb total p2 heq)
    | simp at h

/-- Invariant of the primary line loop: starting from a contiguous
accumulator whose total is its size sum, a successful run ends in a
context with a contiguous extent list and matching total. -/
theorem processLines_inv (opener : Opener) (sb : SparseBuilder) :
    ∀ (lines : List (List Nat)) (st : String) (total : Int) (exts : List Extent)
      (ctx : VMDKCtx), contigFromB 0 exts = true → total = sumSizes exts →
      processLines opener sb lines st total exts = .ok ctx →
      contigFromB 0 ctx.extents = true ∧ ctx.total_size = sumSizes ctx.extents := by
  intro lines
  induction lines with
  | nil =>
    intro st total exts ctx hc htot h
    simp only [processLines, OpenOutcome.ok.injEq] at h
    subst h
    have hn : normalizeExtents exts = exts := normGo_of_contig exts 0 hc
    simp only [normalizeExtents] at hn
    simp only [normalizeExtents, hn]
    exact ⟨hc, htot⟩
  | cons l ls ih =>
    intro st total exts ctx hc htot h
    simp only [processLines] at h
    split at h
    · rename_i st2 t2 e2 hstep
      rcases stepLine_shape opener sb st total exts l st2 t2 e2 hstep with
        ⟨he, ht⟩ | ⟨ex, he, hvo, ht⟩
      · subst he; subst ht
        exact ih st2 t2 e2 ctx hc htot h
      · subst he; subst ht
        refine ih st2 (total + ex.size) (exts ++ [ex]) ctx ?_ ?_ h
        · exact contig_append exts ex 0 hc (by omega)
        · rw [sumSizes_append]; omega
    · exact absurd h (by simp)
    · exact absurd h (by simp)

/-- The primary line loop only panics with the `ParseInt` panic. -/
theorem processLines_panic (opener : Opener) (sb : SparseBuilder) :
    ∀ (lines : List (List Nat)) (st : String) (total : Int) (exts : List Extent)
      (p : PanicKind), processLines opener sb lines st total exts = .panic p →
      p = .invalidInteger := by
  intro lines
  induction lines with
  | nil =>
    intro st total exts p h
    exact absurd h (by simp [processLines])
  | cons l ls ih =>
    intro st total exts p h
    simp only [processLines] at h
    split at h
    · rename_i st2 t2 e2 _
      exact ih st2 t2 e2 p h
    · exact absurd h (by simp)
    · rename_i p2 hstep
      simp only [OpenOutcome.panic.injEq] at h
      subst h
      exact stepLine_panic opener sb st total exts l p2 hstep

/-! ## Lemmas about `ReadAt` and `Close` -/

/-- Every extent variant answers `(0, EOF)` when asked to read at or past
its end. -/
theorem extentReadAt_end (e : Extent) (count : Nat) (off : Int) (h : e.size ≤ off) :
    extentReadAt e count off = ([], 0, some RErr.eof) := by
  cases e with
  | flat r ho sz o fn c =>
    simp only [extentReadAt, flatReadAt]
    rw [if_pos (Or.inr (by simpa [Extent.size] using h))]
  | sparse d o fn c =>
    simp only [extentReadAt, sparseReadAt]
    rw [if_pos (Or.inr (by simpa [Extent.size] using h))]
  | null o sz =>
    simp only [extentReadAt, nullReadAt]
    rw [if_pos (Or.inr (by simpa [Extent.size] using h))]

/-- On an empty extent list the lookup always signals EOF. -/
theorem lookup_empty (ctx : VMDKCtx) (hce : ctx.extents = []) (off : Int) :
    getExtentForOffset ctx off = .error () := by
  rw [getExtentForOffset_eq]
  simp [hce, goSearch, goSearchAux]

/-- When the loop's current position sits exactly at the end of the
extent the lookup found, the read loop stops with `(i, nil)` and the
buffer untouched. -/
theorem readLoop_stop (ctx : VMDKCtx) (bufLen L : Nat) (off : Int) (buf : List Nat)
    (fuel i : Nat) (e : Extent) (hlt : i < bufLen)
    (hlook : getExtentForOffset ctx (off + i) = .ok e)
    (hend : e.vOffset + e.size = off + i) :
    readLoop ctx bufLen L off (fuel + 1) buf i = .ok buf i none := by
  simp only [readLoop]
  rw [if_pos hlt, hlook]
  dsimp only
  have h0 : e.size - (off + (i : Int) - e.vOffset) = 0 := by omega
  rw [h0]
  rw [if_pos (by omega : ((bufLen : Int) - (i : Int)) > 0)]
  rw [if_pos (by constructor <;> omega)]
  have hidx : off + (i : Int) - e.vOffset = e.size := by omega
  rw [hidx, Int.toNat_zero, extentReadAt_end e 0 e.size (le_refl _)]
  dsimp only
  rw [if_neg (by simp)]
  rw [if_pos rfl]
  simp [spliceAt]

/-- The close trace of one extent is exactly its closer, if any. -/
theorem extentCloseTrace_eq (e : Extent) :
    extentCloseTrace e = (Extent.closerOf e).toList := by
  cases e with
  | flat r ho sz o fn c => cases c <;> rfl
  | sparse d o fn c => cases c <;> rfl
  | null o sz => rfl

/-- Folding the context close over the extents appends the per-extent
traces in order. -/
theorem ctxClose_foldl (es : List Extent) : ∀ acc : List Nat,
    es.foldl (fun a e => a ++ extentCloseTrace e) acc =
      acc ++ es.filterMap Extent.closerOf := by
  induction es with
  | nil => intro acc; simp
  | cons e rest ih =>
    intro acc
    simp only [List.foldl_cons, ih, List.filterMap_cons]
    rw [extentCloseTrace_eq]
    cases Extent.closerOf e <;> simp [Option.toList]

/-! ## The claims -/

/-- C1, counterexample: on a well-formed one-extent context,
`ReadAt(buf, total_size)` returns `(0, nil)`, not the `(0, EOF)` the
claim states — the guard is `offset > total_size`, so `offset ==
total_size` falls through to the loop, which breaks on a 0-byte extent
read and returns `(i, nil)` with `i = 0`. -/
theorem c1_counterexample :
    egCtx.total_size = 1024 ∧
    vmdkReadAt egCtx (List.replicate 4 7) 1024 = .ok (List.replicate 4 7) 0 none := by
  decide

/-- C1, amended: `ReadAt` returns `(0, EOF)` exactly for `offset < 0` or
`offset > total_size` (strictly); at `offset == total_size` a well-formed
context returns `(0, nil)` with the buffer untouched. -/
theorem c1_theorem :
    (∀ (ctx : VMDKCtx) (buf : List Nat) (off : Int),
      off < 0 ∨ ctx.total_size < off →
      vmdkReadAt ctx buf off = .ok buf 0 (some RErr.eof)) ∧
    (∀ (ctx : VMDKCtx) (buf : List Nat), wfB ctx = true →
      vmdkReadAt ctx buf ctx.total_size = .ok buf 0 none) := by
  constructor
  · intro ctx buf off h
    unfold vmdkReadAt
    rw [if_pos (by omega)]
  · intro ctx buf hwf
    obtain ⟨hcontig, htot, hnn⟩ := wfB_parts ctx hwf
    have htotnn : 0 ≤ ctx.total_size := by
      have h1 := sumSizes_take_nonneg ctx.extents hnn ctx.extents.length
      rw [List.take_length] at h1
      omega
    unfold vmdkReadAt
    rw [if_neg (by omega)]
    dsimp only
    simp only [sub_self]
    cases hbl : buf.length with
    | zero =>
      have hb : buf = [] := List.length_eq_zero.mp hbl
      subst hb
      simp [readLoop]
    | succ n =>
      rw [if_pos (by omega : ((n + 1 : Nat) : Int) > 0), Int.toNat_zero]
      by_cases hce : ctx.extents = []
      · simp only [readLoop]
        rw [if_pos (Nat.succ_pos n)]
        rw [show ctx.total_size + ((0 : Nat) : Int) = ctx.total_size by omega]
        rw [lookup_empty ctx hce ctx.total_size]
        simp
      · obtain ⟨hlen, hlook, hend⟩ := lookup_at_total ctx hwf hce
        have hl2 : getExtentForOffset ctx (ctx.total_size + ((0 : Nat) : Int)) =
            .ok (ctx.extents[ctx.extents.length - 1]) := by
          rw [show ctx.total_size + ((0 : Nat) : Int) = ctx.total_size by omega]
          exact hlook
        exact readLoop_stop ctx (n + 1) 0 ctx.total_size buf n 0
          (ctx.extents[ctx.extents.length - 1]) (Nat.succ_pos n) hl2 (by omega)

/-- C1, witness. -/
theorem c1_witness :
    vmdkReadAt egCtx [7, 7] (-1) = .ok [7, 7] 0 (some RErr.eof) ∧
    vmdkReadAt egCtx [7, 7] 2000 = .ok [7, 7] 0 (some RErr.eof) ∧
    vmdkReadAt egCtx [7, 7] egCtx.total_size = .ok [7, 7] 0 none :=
  ⟨c1_theorem.1 egCtx [7, 7] (-1) (Or.inl (by decide)),
   c1_theorem.1 egCtx [7, 7] 2000 (Or.inr (by decide)),
   c1_theorem.2 egCtx [7, 7] (by decide)⟩

/-- C2, counterexample: the primary `GetVMDKContext`
(src/parser/context.go) rejects a VMFS extent declaration with the
unsupported-extent-type error instead of building a flat extent. -/
theorem c2_counterexample :
    getVMDKContext descVmfs (descVmfs.length) openerEg sbEg =
      .err (.unsupported (strBytes ("VMFS"))) := by
  decide

/-- C2, amended: in the alternate variant (src/unnamed/part_000) a VMFS
declaration is handled identically to FLAT, and kinds outside
{SPARSE, FLAT, VMFS} never produce an extent there; the primary variant
(src/parser/context.go) instead rejects VMFS itself with
`unsupported-extent-kind`. -/
theorem c2_theorem :
    (∀ (m : ExtentMatch) (opener : Opener) (sb : SparseBuilder) (total : Int),
      buildExtentAlt { m with etype := strBytes ("VMFS") } opener sb total =
        buildExtentAlt { m with etype := strBytes ("FLAT") } opener sb total) ∧
    (∀ (m : ExtentMatch) (opener : Opener) (sb : SparseBuilder) (total : Int)
      (reader : List Nat) (closer : Option Nat),
      m.etype = strBytes ("VMFS") → opener m.filename = .ok (reader, closer) →
      buildExtentPrimary m opener sb total = .fail (.unsupported (strBytes ("VMFS")))) ∧
    (∀ (m : ExtentMatch) (opener : Opener) (sb : SparseBuilder) (total : Int)
      (e : Extent),
      m.etype ≠ strBytes ("SPARSE") → m.etype ≠ strBytes ("FLAT") →
      m.etype ≠ strBytes ("VMFS") →
      buildExtentAlt m opener sb total ≠ .ok e) := by
  refine ⟨?_, ?_, ?_⟩
  · intro m opener sb total
    unfold buildExtentAlt
    dsimp only
    cases h1 : goParseInt m.sectors with
    | error e => rfl
    | ok sectors =>
      cases h2 : (if m.offsetField.isEmpty then (.ok 0 : Except Unit Int)
          else goParseInt m.offsetField) with
      | error e => rfl
      | ok offsetSectors =>
        cases h3 : opener m.filename with
        | error e => rfl
        | ok rc =>
          obtain ⟨reader, closer⟩ := rc
          dsimp only
          rw [if_neg (show ¬ (strBytes ("VMFS") = strBytes ("SPARSE")) from by decide)]
          rw [if_pos (show (strBytes ("VMFS") = strBytes ("FLAT") ∨
            strBytes ("VMFS") = strBytes ("VMFS")) from by decide)]
          rw [if_neg (show ¬ (strBytes ("FLAT") = strBytes ("SPARSE")) from by decide)]
          rw [if_pos (show (strBytes ("FLAT") = strBytes ("FLAT") ∨
            strBytes ("FLAT") = strBytes ("VMFS")) from by decide)]
  · intro m opener sb total reader closer het hop
    unfold buildExtentPrimary
    rw [hop]
    dsimp only
    rw [het]
    rw [if_neg (by decide), if_neg (by decide)]
  · intro m opener sb total e h1 h2 h3
    unfold buildExtentAlt
    cases hs : goParseInt m.sectors with
    | error er => simp
    | ok sectors =>
      cases ho : (if m.offsetField.isEmpty then (.ok 0 : Except Unit Int)
          else goParseInt m.offsetField) with
      | error er => simp
      | ok offsetSectors =>
        cases hop : opener m.filename with
        | error er => simp
        | ok rc =>
          obtain ⟨reader, closer⟩ := rc
          dsimp only
          rw [if_neg h1, if_neg (by
            intro hor
            rcases hor with hf | hv
            · exact h2 hf
            · exact h3 hv)]
          simp

/-- C2, witness. -/
theorem c2_witness :
    buildExtentPrimary mVMFS openerEg sbEg 0 =
      .fail (.unsupported (strBytes ("VMFS"))) ∧
    buildExtentAlt { mZeroes with etype := strBytes ("VMFS") } openerEg sbEg 0 =
      buildExtentAlt { mZeroes with etype := strBytes ("FLAT") } openerEg sbEg 0 ∧
    buildExtentAlt mZeroes openerEg sbEg 0 ≠ .ok (Extent.null 0 0) :=
  ⟨c2_theorem.2.1 mVMFS openerEg sbEg 0 [] (some 0) (by decide) (by decide),
   c2_theorem.1 mZeroes openerEg sbEg 0,
   c2_theorem.2.2 mZeroes openerEg sbEg 0 (Extent.null 0 0)
     (by decide) (by decide) (by decide)⟩

/-- C4, counterexample: the primary source *panics* on a malformed
(64-bit-overflowing) sector count in a FLAT extent line — `ParseInt`
panics instead of returning an error to the caller. -/
theorem c4_counterexample :
    getVMDKContext descOverflow (descOverflow.length) openerEg sbEg =
      .panic .invalidInteger := by
  decide

/-- C4, amended: on a malformed integer in an extent line the *alternate*
variant aborts construction with the parse error (no partial context);
the primary variant panics instead of returning an error. -/
theorem c4_theorem :
    (∀ (m : ExtentMatch) (opener : Opener) (sb : SparseBuilder) (total : Int),
      goParseInt m.sectors = .error () →
      buildExtentAlt m opener sb total = .error .parseErr) ∧
    (∀ (m : ExtentMatch) (opener : Opener) (sb : SparseBuilder) (total : Int)
      (reader : List Nat) (closer : Option Nat),
      goParseInt m.sectors = .error () → m.etype = strBytes ("FLAT") →
      opener m.filename = .ok (reader, closer) →
      buildExtentPrimary m opener sb total = .panicRes .invalidInteger) := by
  constructor
  · intro m opener sb total h
    unfold buildExtentAlt
    rw [h]
  · intro m opener sb total reader closer hpar het hop
    unfold buildExtentPrimary
    rw [hop]
    dsimp only
    rw [het]
    rw [if_neg (by decide), if_pos rfl, hpar]

/-- C4, witness. -/
theorem c4_witness :
    buildExtentAlt mOverflow openerEg sbEg 0 = .error .parseErr ∧
    buildExtentPrimary mOverflow openerEg sbEg 0 = .panicRes .invalidInteger :=
  ⟨c4_theorem.1 mOverflow openerEg sbEg 0 (by decide),
   c4_theorem.2 mOverflow openerEg sbEg 0 [] (some 0) (by decide) (by decide)
     (by decide)⟩

/-- C3: every context `GetVMDKContext` returns satisfies the layout
invariants: adjacent extents are contiguous
(`e_i.virtual_offset + e_i.total_size == e_{i+1}.virtual_offset`), the
first extent sits at virtual offset 0, and `total_size` is the sum of
all extent sizes (normalization inserts no null extents here because the
declared extents are already contiguous, so the sum over the final list
includes every inserted null extent vacuously). -/
theorem c3_theorem : ∀ (data : List Nat) (size : Int) (opener : Opener)
    (sb : SparseBuilder) (ctx : VMDKCtx),
    getVMDKContext data size opener sb = .ok ctx →
    adjacentPairsOk ctx.extents = true ∧
    (∀ e, ctx.extents.head? = some e → e.vOffset = 0) ∧
    ctx.total_size = sumSizes ctx.extents := by
  intro data size opener sb ctx h
  unfold getVMDKContext at h
  split at h
  · exact absurd h (by simp)
  · dsimp only at h
    split at h
    all_goals
      split at h
      · exact absurd h (by simp)
      · obtain ⟨hc, ht⟩ := processLines_inv opener sb _ _ 0 [] ctx rfl rfl h
        refine ⟨contig_adjacent ctx.extents 0 hc, ?_, ht⟩
        intro e he
        cases hce : ctx.extents with
        | nil => rw [hce] at he; simp at he
        | cons e1 rest =>
          rw [hce] at he hc
          simp only [List.head?_cons, Option.some.injEq] at he
          subst he
          simp only [contigFromB, Bool.and_eq_true, beq_iff_eq] at hc
          exact hc.1

/-- C3, witness. -/
theorem c3_witness :
    adjacentPairsOk cFlat.extents = true ∧
    eFlat.vOffset = 0 ∧
    cFlat.total_size = sumSizes cFlat.extents :=
  have h := c3_theorem descFlat (descFlat.length) openerEg sbEg cFlat (by decide)
  ⟨h.1, h.2.1 eFlat (by decide), h.2.2⟩

/-- C5: a flat extent built by `GetFlatExtent` from `(sector_count = s,
sector_offset = b)` answers `(0, EOF)` outside `[0, s*512)`, otherwise
clamps the requested count to `s*512 - off` and delegates to the backing
reader at `b*512 + off`; reading the full extent is exactly reading
`s*512` bytes at byte offset `b*512` of the backing reader. -/
theorem c5_theorem : ∀ (reader filename : List Nat) (b s vo : Int)
    (closer : Option Nat) (count : Nat) (off : Int),
    ((off < 0 ∨ s * 512 ≤ off) →
      extentReadAt (getFlatExtent reader filename b s vo closer) count off =
        ([], 0, some RErr.eof)) ∧
    (0 ≤ off → off < s * 512 →
      extentReadAt (getFlatExtent reader filename b s vo closer) count off =
        readerAt reader (min (count : Int) (s * 512 - off)).toNat (b * 512 + off)) ∧
    (0 < s → (count : Int) = s * 512 →
      extentReadAt (getFlatExtent reader filename b s vo closer) count 0 =
        readerAt reader count (b * 512)) := by
  intro reader filename b s vo closer count off
  refine ⟨?_, ?_, ?_⟩
  · intro h
    simp only [getFlatExtent, extentReadAt, flatReadAt]
    rw [if_pos h]
  · intro h0 hlt
    simp only [getFlatExtent, extentReadAt, flatReadAt]
    rw [if_neg (by omega)]
    rw [show (if off + (count : Int) > s * 512 then s * 512 - off else (count : Int)) =
      min (count : Int) (s * 512 - off) from by split <;> omega]
  · intro hs hcount
    simp only [getFlatExtent, extentReadAt, flatReadAt]
    rw [if_neg (by omega)]
    rw [show (if (0 : Int) + (count : Int) > s * 512 then s * 512 - 0 else (count : Int)) =
      (count : Int) from by split <;> omega]
    rw [Int.toNat_natCast, add_zero]

/-- C5, witness. -/
theorem c5_witness :
    extentReadAt (getFlatExtent [1, 2, 3] [] 0 1 0 none) 4 600 = ([], 0, some RErr.eof) ∧
    extentReadAt (getFlatExtent [1, 2, 3] [] 0 1 0 none) 4 2 =
      readerAt [1, 2, 3] (min (4 : Int) (1 * 512 - 2)).toNat (0 * 512 + 2) ∧
    extentReadAt (getFlatExtent [1, 2, 3] [] 0 1 0 none) 512 0 =
      readerAt [1, 2, 3] 512 (0 * 512) :=
  ⟨(c5_theorem [1, 2, 3] [] 0 1 0 none 4 600).1 (Or.inr (by decide)),
   (c5_theorem [1, 2, 3] [] 0 1 0 none 4 2).2.1 (by decide) (by decide),
   (c5_theorem [1, 2, 3] [] 0 1 0 none 512 0).2.2 (by decide) (by decide)⟩

/-- C6, counterexample: at the upper bound of the last extent (`offset ==
virtual_offset + total_size`, outside the claimed valid range
`[0, total_size)`) the lookup still returns the extent instead of
signalling EOF — the membership test uses `virtual_offset + extent_size <
offset`, which is non-strict at the boundary. -/
theorem c6_counterexample :
    egExtent.vOffset + egExtent.size = 1024 ∧
    getExtentForOffset egCtx 1024 = .ok egExtent := by
  decide

/-- C6, amended: on a well-formed context the lookup returns extent `k`
for every offset in `[vo_k, vo_k + size_k)`; at `offset == total_size` it
returns the *last* extent (not EOF); it signals EOF exactly for
`offset < 0` or `offset > total_size`. -/
theorem c6_theorem :
    (∀ (ctx : VMDKCtx), wfB ctx = true →
      ∀ (k : Nat) (hk : k < ctx.extents.length) (off : Int),
        (ctx.extents[k]).vOffset ≤ off →
        off < (ctx.extents[k]).vOffset + (ctx.extents[k]).size →
        getExtentForOffset ctx off = .ok (ctx.extents[k])) ∧
    (∀ (ctx : VMDKCtx), wfB ctx = true → ∀ e, ctx.extents.getLast? = some e →
      getExtentForOffset ctx ctx.total_size = .ok e) ∧
    (∀ (ctx : VMDKCtx), wfB ctx = true → ∀ off : Int,
      off < 0 ∨ ctx.total_size < off → getExtentForOffset ctx off = .error ()) := by
  refine ⟨?_, ?_, ?_⟩
  · intro ctx hwf k hk off h1 h2
    exact lookup_mem ctx hwf k hk off h1 h2
  · intro ctx hwf e he
    have hne : ctx.extents ≠ [] := by
      intro hc
      rw [hc] at he
      simp at he
    obtain ⟨hlen, hlook, _⟩ := lookup_at_total ctx hwf hne
    have heq : ctx.extents[ctx.extents.length - 1] = e := by
      rw [List.getLast?_eq_getElem?] at he
      rw [List.getElem?_eq_getElem (by omega)] at he
      exact Option.some_inj.mp he
    rw [← heq]
    exact hlook
  · intro ctx hwf off hoff
    exact lookup_eof ctx hwf off hoff

/-- C6, witness. -/
theorem c6_witness :
    getExtentForOffset egCtx 5 = .ok egExtent ∧
    getExtentForOffset egCtx egCtx.total_size = .ok egExtent ∧
    getExtentForOffset egCtx (-3) = .error () :=
  ⟨c6_theorem.1 egCtx (by decide) 0 (by decide) 5 (by decide) (by decide),
   c6_theorem.2.1 egCtx (by decide) egExtent (by decide),
   c6_theorem.2.2 egCtx (by decide) (-3) (Or.inl (by decide))⟩

/-- C7, counterexample: on a context with broken invariants, a 20-byte
read first copies 16 real bytes (value 170) from the flat extent — the
16-byte read of the same range shows them — and then, when the lookup
fails, zeroes the *whole* clamped buffer, erasing the 16 bytes already
written, and returns `(len(buf), nil)`; the claim said those bytes are
left unchanged. -/
theorem c7_counterexample :
    vmdkReadAt brCtx (List.replicate 16 7) 0 = .ok (List.replicate 16 170) 16 none ∧
    vmdkReadAt brCtx (List.replicate 20 7) 0 = .ok (List.replicate 20 0) 20 none := by
  decide

/-- C7, amended: whenever the lookup fails inside the read loop — at any
progress point `i`, with any bytes already written in `buf` — the source
zeroes the entire clamped buffer (`for i := 0; i < len(buf); i++`), not
just the remainder, and returns `(len(buf), nil)`. -/
theorem c7_theorem : ∀ (ctx : VMDKCtx) (bufLen L : Nat) (off : Int)
    (buf : List Nat) (fuel i : Nat), i < bufLen →
    getExtentForOffset ctx (off + i) = .error () →
    readLoop ctx bufLen L off (fuel + 1) buf i =
      .ok (List.replicate L 0 ++ buf.drop L) L none := by
  intro ctx bufLen L off buf fuel i hlt hfail
  simp only [readLoop]
  rw [if_pos hlt, hfail]

/-- C7, witness. -/
theorem c7_witness :
    readLoop brCtx 20 20 0 5 (List.replicate 16 170 ++ List.replicate 4 7) 16 =
      .ok (List.replicate 20 0 ++
        (List.replicate 16 170 ++ List.replicate 4 7).drop 20) 20 none :=
  c7_theorem brCtx 20 20 0 (List.replicate 16 170 ++ List.replicate 4 7) 4 16
    (by decide) (by decide)

/-- C8, counterexample: `FlatExtent.Close` never nulls its closer, so
closing the same extent twice runs the closer twice — the second close is
not a no-op. -/
theorem c8_counterexample :
    extentCloseTrace egExtent = [5] ∧
    extentCloseTrace egExtent ++ extentCloseTrace egExtent = [5, 5] ∧
    extentCloseTrace egExtent ++ extentCloseTrace egExtent ≠ extentCloseTrace egExtent := by
  decide

/-- C8, amended: closing the context runs every extent's closer exactly
once, in construction order (the trace is exactly the extents' closers in
order); but closing an extent twice runs its closer twice, because the
source does not null the closer after running it. -/
theorem c8_theorem :
    (∀ ctx : VMDKCtx, ctxCloseTrace ctx = ctx.extents.filterMap Extent.closerOf) ∧
    (∀ (e : Extent) (c : Nat), Extent.closerOf e = some c →
      extentCloseTrace e = [c] ∧
      extentCloseTrace e ++ extentCloseTrace e = [c, c]) := by
  constructor
  · intro ctx
    unfold ctxCloseTrace
    rw [ctxClose_foldl]
    simp
  · intro e c hc
    have h := extentCloseTrace_eq e
    rw [hc] at h
    simp only [Option.toList] at h
    exact ⟨h, by rw [h]; rfl⟩

/-- C8, witness. -/
theorem c8_witness :
    ctxCloseTrace egCtx = egCtx.extents.filterMap Extent.closerOf ∧
    extentCloseTrace egExtent = [5] :=
  ⟨c8_theorem.1 egCtx, (c8_theorem.2 egExtent 5 (by decide)).1⟩

/-- C9, counterexample: the source regex is unanchored with single-space
separators, so on a line with two junk characters before `RW` the primary
parser still appends an extent (the whole run of `GetVMDKContext` below
produces one extent from that line), while the anchored regex the claim
states does not match the line at all. -/
theorem c9_counterexample :
    getVMDKContext descLeadingJunk (descLeadingJunk.length) openerEg sbEg =
      .ok ⟨[Extent.flat [] 0 1024 0 (strBytes ("x.vmdk")) (some 0)], 1024⟩ ∧
    specAnchoredExtentMatch (trimSpace lineLeadingJunk) = none ∧
    extentRegexFind (trimSpace lineLeadingJunk) =
      some ⟨strBytes ("RW"), strBytes ("2"), strBytes ("FLAT"),
        strBytes ("x.vmdk"), strBytes ("0")⟩ := by
  decide

/-- C9, amended: in the `Extents` state an extent is appended exactly
when the *unanchored single-space* source regex finds a match in the
trimmed line (leading characters before `RW` do not prevent a match;
two-space separators do); on a non-matching non-header line the parser
leaves the `Extents` state (state becomes the empty string), ending the
extent list. -/
theorem c9_theorem :
    (∀ (opener : Opener) (sb : SparseBuilder) (total : Int) (exts : List Extent)
      (line : List Nat),
      (strBytes ("# Disk DescriptorFile")).isPrefixOf (trimSpace line) = false →
      (strBytes ("# Extent description")).isPrefixOf (trimSpace line) = false →
      (strBytes ("# The Disk Data Base")).isPrefixOf (trimSpace line) = false →
      extentRegexFind (trimSpace line) = none →
      stepLine opener sb ("Extents") total exts line = .cont ("") total exts) ∧
    (∀ (opener : Opener) (sb : SparseBuilder) (total : Int) (exts : List Extent)
      (line : List Nat) (m : ExtentMatch) (e : Extent),
      (strBytes ("# Disk DescriptorFile")).isPrefixOf (trimSpace line) = false →
      (strBytes ("# Extent description")).isPrefixOf (trimSpace line) = false →
      (strBytes ("# The Disk Data Base")).isPrefixOf (trimSpace line) = false →
      extentRegexFind (trimSpace line) = some m →
      buildExtentPrimary m opener sb total = .okE e →
      stepLine opener sb ("Extents") total exts line =
        .cont ("Extents") (total + e.size) (exts ++ [e])) ∧
    extentRegexFind lineDoubleSpace = none := by
  refine ⟨?_, ?_, by decide⟩
  · intro opener sb total exts line h1 h2 h3 hfind
    unfold stepLine
    dsimp only
    rw [if_neg (by simp [h1]), if_neg (by simp [h2]), if_neg (by simp [h3])]
    simp only [hfind]
  · intro opener sb total exts line m e h1 h2 h3 hfind hbuild
    unfold stepLine
    dsimp only
    rw [if_neg (by simp [h1]), if_neg (by simp [h2]), if_neg (by simp [h3])]
    simp only [hfind, hbuild]

/-- C9, witness. -/
theorem c9_witness :
    stepLine openerEg sbEg ("Extents") 0 [] lineDoubleSpace = .cont ("") 0 [] ∧
    stepLine openerEg sbEg ("Extents") 0 [] lineLeadingJunk =
      .cont ("Extents") (0 + (Extent.flat [] 0 1024 0 (strBytes ("x.vmdk"))
        (some 0)).size) ([] ++ [Extent.flat [] 0 1024 0 (strBytes ("x.vmdk")) (some 0)]) :=
  ⟨c9_theorem.1 openerEg sbEg 0 [] lineDoubleSpace (by decide) (by decide)
     (by decide) (by decide),
   c9_theorem.2.1 openerEg sbEg 0 [] lineLeadingJunk
     ⟨strBytes ("RW"), strBytes ("2"), strBytes ("FLAT"), strBytes ("x.vmdk"),
       strBytes ("0")⟩
     (Extent.flat [] 0 1024 0 (strBytes ("x.vmdk")) (some 0))
     (by decide) (by decide) (by decide) (by decide) (by decide)⟩

/-- C10: with a declared primary size below 4 the magic-number check
`binary.LittleEndian.Uint32(buf[0:4])` panics (out-of-range slice; a
negative size already panics in `make([]byte, size)`), and with size at
least 4 neither of those panics can occur. -/
theorem c10_theorem :
    (∀ (data : List Nat) (size : Int) (opener : Opener) (sb : SparseBuilder),
      0 ≤ size → size < 4 →
      getVMDKContext data size opener sb = .panic .sliceOOR) ∧
    (∀ (data : List Nat) (size : Int) (opener : Opener) (sb : SparseBuilder),
      size < 0 → getVMDKContext data size opener sb = .panic .makeslice) ∧
    (∀ (data : List Nat) (size : Int) (opener : Opener) (sb : SparseBuilder),
      4 ≤ size →
      getVMDKContext data size opener sb ≠ .panic .sliceOOR ∧
      getVMDKContext data size opener sb ≠ .panic .makeslice) := by
  refine ⟨?_, ?_, ?_⟩
  · intro data size opener sb h0 h4
    unfold getVMDKContext
    rw [if_neg (by omega)]
    dsimp only
    rw [if_pos (by
      rw [show (if size > 65536 then (65536 : Int) else size) = size from by omega]
      omega)]
  · intro data size opener sb h
    unfold getVMDKContext
    rw [if_pos h]
  · intro data size opener sb h4
    unfold getVMDKContext
    rw [if_neg (by omega)]
    dsimp only
    rw [if_neg (by
      have : (if size > 65536 then (65536 : Int) else size) = 65536 ∨
          (if size > 65536 then (65536 : Int) else size) = size := by
        split
        · left; rfl
        · right; rfl
      omega)]
    constructor
    · intro hcon
      have := processLines_panic opener sb _ _ 0 [] .sliceOOR hcon
      exact absurd this (by decide)
    · intro hcon
      have := processLines_panic opener sb _ _ 0 [] .makeslice hcon
      exact absurd this (by decide)

/-- C10, witness. -/
theorem c10_witness :
    getVMDKContext [1, 2, 3] 2 openerEg sbEg = .panic .sliceOOR ∧
    getVMDKContext [1, 2, 3] (-1) openerEg sbEg = .panic .makeslice ∧
    getVMDKContext [1, 2, 3] 4 openerEg sbEg ≠ .panic .sliceOOR :=
  ⟨c10_theorem.1 [1, 2, 3] 2 openerEg sbEg (by decide) (by decide),
   c10_theorem.2.1 [1, 2, 3] (-1) openerEg sbEg (by decide),
   (c10_theorem.2.2 [1, 2, 3] 4 openerEg sbEg (by decide)).1⟩

end VMDK
